import Mathlib

/-!
Shallow embedding of the Trade Ledger & Valuation Engine of the
stock-dashboard application (src/app.py), together with proofs of the
spec-level properties of its holdings projection, FIFO realized-gain
computation, snapshot recording, rebalance suggestions, alert evaluation
and portfolio-trend series.

Numeric values (shares, prices, dollar amounts) are modelled as rationals;
dates and timestamp-bucket keys are modelled as strings ordered
lexicographically, exactly as the Python code compares its ISO-format date
strings.
-/

namespace StockDash

/-- Trade action, the `action` field of a trade record. -/
inductive TAction where
  | BUY : TAction
  | SELL : TAction
deriving DecidableEq

/-- One holding inside an account's `holdings` list (app.py portfolio data
model): a ticker with a share count and a weighted-average cost. -/
structure Holding where
  ticker : String
  shares : ℚ
  avg_cost : ℚ
deriving DecidableEq

/-- One record of the append-only trade log (app.py `manage_trades`,
lines 3324-3334). -/
structure Trade where
  tid : String
  date : String
  account_id : String
  ticker : String
  action : TAction
  shares : ℚ
  price : ℚ
  fees : ℚ
  notes : String
deriving DecidableEq

/-- ApplyTrade's holdings synchronisation for one account (app.py
`manage_trades`, lines 3342-3369): walk the holdings list, update the first
holding whose ticker matches (BUY recomputes the average cost, guarded by
`new_shares > 0`, and adds the shares; SELL subtracts the shares and removes
the holding when the result is non-positive); when no holding matches and
the action is BUY, append a fresh holding priced at the trade price. -/
def applyTrade (t : Trade) : List Holding → List Holding
  | [] =>
    match t.action with
    | TAction.BUY => [⟨t.ticker, t.shares, t.price⟩]
    | TAction.SELL => []
  | h :: rest =>
    if h.ticker = t.ticker then
      match t.action with
      | TAction.BUY =>
        let newShares := h.shares + t.shares
        let newAvg :=
          if 0 < newShares then
            (h.shares * h.avg_cost + t.shares * t.price) / newShares
          else h.avg_cost
        ⟨h.ticker, newShares, newAvg⟩ :: rest
      | TAction.SELL =>
        let newShares := h.shares - t.shares
        if newShares ≤ 0 then rest
        else ⟨h.ticker, newShares, h.avg_cost⟩ :: rest
    else h :: applyTrade t rest

/-- ReverseTrade's holdings adjustment (app.py `manage_trades` delete
branch, lines 3384-3396): find the first holding with the trade's ticker;
reversing a BUY subtracts the shares and removes the holding when the result
is non-positive, reversing a SELL adds the shares back.  When no holding
matches, nothing changes (the loop finds nothing). -/
def reverseTrade (t : Trade) : List Holding → List Holding
  | [] => []
  | h :: rest =>
    if h.ticker = t.ticker then
      match t.action with
      | TAction.BUY =>
        let newShares := h.shares - t.shares
        if newShares ≤ 0 then rest
        else ⟨h.ticker, newShares, h.avg_cost⟩ :: rest
      | TAction.SELL =>
        ⟨h.ticker, h.shares + t.shares, h.avg_cost⟩ :: rest
    else h :: reverseTrade t rest

/-- Folding a whole trade list through `applyTrade`, oldest call first. -/
def applyTrades (ts : List Trade) (hs : List Holding) : List Holding :=
  ts.foldl (fun acc t => applyTrade t acc) hs

/-! ### Realized gains (app.py `calculate_realized_gains`, lines 3487-3543) -/

/-- A BUY lot as built at lines 3496-3500: shares, price and the not yet
consumed remainder (initially the full share count). -/
structure Lot where
  shares : ℚ
  price : ℚ
  remaining : ℚ
deriving DecidableEq

/-- A SELL event as built at lines 3502-3505. -/
structure SellEv where
  shares : ℚ
  price : ℚ
deriving DecidableEq

/-- The lot obtained from a BUY trade (lines 3496-3500). -/
def tradeLot (t : Trade) : Lot := ⟨t.shares, t.price, t.shares⟩

/-- The inner FIFO loop of `calculate_realized_gains` (lines 3523-3533) for
one SELL: walk the lots oldest first, skip exhausted lots, take
`min remaining still_to_sell` from each, and return the cost matched against
this SELL together with the updated lots. -/
def consumeLots (s : ℚ) : List Lot → ℚ × List Lot
  | [] => (0, [])
  | lot :: rest =>
    if s ≤ 0 then (0, lot :: rest)
    else if lot.remaining ≤ 0 then
      let r := consumeLots s rest
      (r.1, lot :: r.2)
    else
      let used := min lot.remaining s
      let r := consumeLots (s - used) rest
      (used * lot.price + r.1, ⟨lot.shares, lot.price, lot.remaining - used⟩ :: r.2)

/-- The outer loop over the SELL events of one ticker (lines 3517-3533),
accumulating the matched cost basis across sells while threading the
partially consumed lots. -/
def fifoCost : List SellEv → List Lot → ℚ
  | [], _ => 0
  | s :: rest, lots =>
    let r := consumeLots s.shares lots
    r.1 + fifoCost rest r.2

/-- Stable ascending sort by the `date` string, the
`sorted(trades, key=lambda x: x.get('date', ''))` at line 3491.
`List.insertionSort` with a non-strict comparison is stable, like Python's
`sorted`. -/
def sortTrades (ts : List Trade) : List Trade :=
  List.insertionSort (fun a b => a.date ≤ b.date) ts

/-- The BUY lots of one ticker in chronological order (the `buys` list the
grouping pass of lines 3490-3505 builds for that ticker). -/
def buysOf (tk : String) (ts : List Trade) : List Lot :=
  (ts.filter fun t => t.ticker = tk ∧ t.action = TAction.BUY).map tradeLot

/-- The SELL events of one ticker in chronological order (the `sells` list
of the same grouping pass). -/
def sellsOf (tk : String) (ts : List Trade) : List SellEv :=
  (ts.filter fun t => t.ticker = tk ∧ t.action = TAction.SELL).map
    fun t => ⟨t.shares, t.price⟩

/-- The derived realized-gain record of one ticker (lines 3536-3541). -/
structure GainRecord where
  shares_sold : ℚ
  cost_basis : ℚ
  proceeds : ℚ
  gain : ℚ
deriving DecidableEq

/-- The per-ticker body of `calculate_realized_gains` (lines 3509-3541):
skip a ticker without sells (line 3510), match its SELLs against its BUY
lots FIFO for the cost basis, total the proceeds and sold shares, and emit
a record when the sold total is positive (line 3535), with
`gain = proceeds - cost_basis`. -/
def gainEntry (sorted : List Trade) (tk : String) :
    Option (String × GainRecord) :=
  let sells := sellsOf tk sorted
  if sells = [] then none
  else
    let totalCost := fifoCost sells (buysOf tk sorted)
    let totalProceeds := (sells.map fun s => s.shares * s.price).sum
    let sold := (sells.map SellEv.shares).sum
    if 0 < sold then
      some (tk, ⟨sold, totalCost, totalProceeds, totalProceeds - totalCost⟩)
    else none

/-- `calculate_realized_gains` (app.py lines 3487-3543): sort the trade log
by date, group it by ticker (the dict keyed in first-occurrence order) and
compute each ticker's realized-gain record. -/
def calculate_realized_gains (trades : List Trade) : List (String × GainRecord) :=
  (((sortTrades trades).map Trade.ticker).dedup).filterMap
    (gainEntry (sortTrades trades))

/-! ### Price alerts (app.py `manage_alerts`, lines 5328-5359) -/

/-- An alert record as created at lines 5299-5307.  The `condType` field is
the record's `type` entry, the string ABOVE or BELOW. -/
structure Alert where
  aid : String
  ticker : String
  condType : String
  target_price : ℚ
  created_date : String
  triggered : Bool
  triggered_date : Option String
deriving DecidableEq

/-- One iteration of the alert-evaluation loop (lines 5331-5354) on a single
alert: already-triggered alerts are skipped (line 5332), a failed or empty
quote leaves the alert untouched (the `try`/`except` plus the `if data`
check), and otherwise the alert triggers exactly when ABOVE meets
`price ≥ target` or BELOW meets `price ≤ target`, stamping the current
date. -/
def checkAlert (quote : String → Option ℚ) (today : String) (a : Alert) : Alert :=
  if a.triggered then a
  else
    match quote a.ticker with
    | none => a
    | some p =>
      if a.condType = "ABOVE" ∧ a.target_price ≤ p then
        { a with triggered := true, triggered_date := some today }
      else if a.condType = "BELOW" ∧ p ≤ a.target_price then
        { a with triggered := true, triggered_date := some today }
      else a

/-- The whole evaluation pass over the alert list (lines 5331-5354). -/
def evaluateAlerts (quote : String → Option ℚ) (today : String)
    (alerts : List Alert) : List Alert :=
  alerts.map (checkAlert quote today)

/-! ### Portfolio snapshots (app.py `record_portfolio_snapshot`,
lines 211-269) -/

/-- One persisted snapshot: the date key, the per-account
`(account_id, value, cost)` data computed from live quotes, and the summed
totals (lines 256-262). -/
structure Snapshot where
  date : String
  accounts : List (String × ℚ × ℚ)
  total_value : ℚ
  total_cost : ℚ
deriving DecidableEq

/-- Date-wise comparison of snapshots, the `key=lambda x: x['date']` of
line 266. -/
def snapLE (a b : Snapshot) : Prop := a.date ≤ b.date

instance : DecidableRel snapLE := fun a b =>
  inferInstanceAs (Decidable (a.date ≤ b.date))

instance : IsTotal Snapshot snapLE := ⟨fun a b => le_total a.date b.date⟩

instance : IsTrans Snapshot snapLE := ⟨fun _ _ _ h1 h2 => le_trans h1 h2⟩

/-- Removal of the existing snapshot for today (lines 217-224): scan the
list and drop the first snapshot whose date matches; when none matches
nothing is removed. -/
def dropDate (d : String) : List Snapshot → List Snapshot
  | [] => []
  | s :: rest => if s.date = d then rest else s :: dropDate d rest

/-- Python's `sorted(history, key=date)[-365:]`: the last `k` elements of a
list. -/
def keepLast (k : Nat) (l : List Snapshot) : List Snapshot :=
  l.drop (l.length - k)

/-- `record_portfolio_snapshot` (app.py lines 211-269).  The per-account
values computed from live quotes (lines 226-254, the external PriceProvider)
enter as the `accountsData` parameter; the totals are their sums.  The
history update removes any existing snapshot for today, appends the new
snapshot, sorts by date and keeps the most recent 365 entries
(lines 217-267). -/
def record_portfolio_snapshot (today : String)
    (accountsData : List (String × ℚ × ℚ)) (history : List Snapshot) :
    List Snapshot :=
  let snap : Snapshot :=
    ⟨today, accountsData, (accountsData.map fun a => a.2.1).sum,
      (accountsData.map fun a => a.2.2).sum⟩
  keepLast 365 (List.insertionSort snapLE (dropDate today history ++ [snap]))

/-- The snapshot `record_portfolio_snapshot` appends for a given day and
account data. -/
def mkSnapshot (today : String) (accountsData : List (String × ℚ × ℚ)) :
    Snapshot :=
  ⟨today, accountsData, (accountsData.map fun a => a.2.1).sum,
    (accountsData.map fun a => a.2.2).sum⟩

/-! ### Rebalance suggestions (app.py `update_analytics`,
lines 5180-5205) -/

/-- One rebalance suggestion: the action, the dollar amount and the
ticker. -/
structure Suggestion where
  action : TAction
  amount : ℚ
  ticker : String
deriving DecidableEq

/-- The dictionary lookups `holdings_data.get(t, ...).get('value', 0)` and
`target_allocs.get(t, 0)`: first value stored under a key, defaulting to
zero. -/
def valueAt (m : List (String × ℚ)) (k : String) : ℚ :=
  match m with
  | [] => 0
  | p :: rest => if p.1 = k then p.2 else valueAt rest k

/-- The union of tickers over holdings and targets,
`set(list(holdings_data.keys()) + list(target_allocs.keys()))` at
line 5182. -/
def tickerUnion (holdingsVal targets : List (String × ℚ)) : List String :=
  (holdingsVal.map Prod.fst ++ targets.map Prod.fst).dedup

/-- One iteration of the rebalancing-suggestions loop (lines 5183-5203):
compute `diff = actual_pct - target_pct`; when `abs(diff) > threshold` emit
a SELL of `diff/100 * total` dollars if `diff > 0`, else a BUY of
`abs(diff/100) * total` dollars; within threshold emit nothing. -/
def suggestionFor (holdingsVal targets : List (String × ℚ))
    (threshold totalValue : ℚ) (tk : String) : Option Suggestion :=
  let actual := valueAt holdingsVal tk / totalValue * 100
  let target := valueAt targets tk
  let diff := actual - target
  if threshold < |diff| then
    some (if 0 < diff then ⟨TAction.SELL, diff / 100 * totalValue, tk⟩
          else ⟨TAction.BUY, |diff / 100| * totalValue, tk⟩)
  else none

/-- The rebalancing-suggestions loop (lines 5180-5205), reached only when
holdings and targets are non-empty and the total value is positive
(line 5180): one pass of `suggestionFor` over the ticker union. -/
def rebalanceSuggestions (holdingsVal targets : List (String × ℚ))
    (threshold totalValue : ℚ) : List Suggestion :=
  (tickerUnion holdingsVal targets).filterMap
    (suggestionFor holdingsVal targets threshold totalValue)

/-! ### Portfolio trend series (app.py `create_portfolio_trend_graph`,
lines 1074-1105) -/

/-- The price samples of one ticker as consumed by the valuation loop: the
held share count (summed over accounts at lines 1048-1054) and the
`(dt_key, close)` samples surviving the `pd.notna` check, with `dt_key`
already bucketed by the window's strftime format (line 1089). -/
structure TickerData where
  shares : ℚ
  samples : List (String × ℚ)

/-- One `portfolio_values[dt_key] += price * shares` step
(lines 1090-1092): add to the entry of an existing key, or append a fresh
key initialised with the contribution. -/
def addSample (m : List (String × ℚ)) (k : String) (v : ℚ) :
    List (String × ℚ) :=
  match m with
  | [] => [(k, v)]
  | p :: rest => if p.1 = k then (p.1, p.2 + v) :: rest else p :: addSample rest k v

/-- The inner loop over one ticker's samples (lines 1087-1092). -/
def addTickerSamples (acc : List (String × ℚ)) (sh : ℚ)
    (samples : List (String × ℚ)) : List (String × ℚ) :=
  samples.foldl (fun a s => addSample a s.1 (s.2 * sh)) acc

/-- The `portfolio_values` dictionary after the loop over all tickers
(lines 1075-1094). -/
def buildValues (ts : List TickerData) : List (String × ℚ) :=
  ts.foldl (fun acc td => addTickerSamples acc td.shares td.samples) []

/-- The final series (lines 1104-1105): the keys of `portfolio_values` in
sorted order, each paired with its accumulated value. -/
def trendSeries (ts : List TickerData) : List (String × ℚ) :=
  let vals := buildValues ts
  (List.insertionSort (fun a b : String => a ≤ b) (vals.map Prod.fst)).map
    fun k => (k, valueAt vals k)

/-- Overwriting variant of `addSample`: a repeated key replaces the stored
value instead of adding to it. -/
def setSample (m : List (String × ℚ)) (k : String) (v : ℚ) :
    List (String × ℚ) :=
  match m with
  | [] => [(k, v)]
  | p :: rest => if p.1 = k then (p.1, v) :: rest else p :: setSample rest k v

/-- Per-ticker de-duplication of samples, keeping the last value seen for
each key. -/
def dedupSamples (samples : List (String × ℚ)) : List (String × ℚ) :=
  samples.foldl (fun a s => setSample a s.1 s.2) []

/-- Modelled from the spec: the spec requires that repeated price samples
for the same ticker at the same timestamp bucket be de-duplicated
(overwritten, not double-counted) before the cross-ticker sum; no such
de-duplication exists in `create_portfolio_trend_graph`, so this definition
follows the spec's words for comparison with `trendSeries`. -/
def specTrendSeries (ts : List TickerData) : List (String × ℚ) :=
  trendSeries (ts.map fun td => ⟨td.shares, dedupSamples td.samples⟩)

/-! ### Helper lemmas on the holdings projection -/

/-- `applyTrade` walks past a prefix of holdings none of which matches the
trade's ticker. -/
theorem applyTrade_append_no_match (t : Trade) (pre l : List Holding)
    (hp : ∀ x ∈ pre, x.ticker ≠ t.ticker) :
    applyTrade t (pre ++ l) = pre ++ applyTrade t l := by
  induction pre with
  | nil => rfl
  | cons h rest ih =>
    have hh : h.ticker ≠ t.ticker := hp h (List.mem_cons_self h rest)
    simp only [List.cons_append, applyTrade, if_neg hh, List.append_eq]
    rw [ih fun x hx => hp x (List.mem_cons_of_mem h hx)]

/-- `reverseTrade` walks past a prefix of holdings none of which matches the
trade's ticker. -/
theorem reverseTrade_append_no_match (t : Trade) (pre l : List Holding)
    (hp : ∀ x ∈ pre, x.ticker ≠ t.ticker) :
    reverseTrade t (pre ++ l) = pre ++ reverseTrade t l := by
  induction pre with
  | nil => rfl
  | cons h rest ih =>
    have hh : h.ticker ≠ t.ticker := hp h (List.mem_cons_self h rest)
    simp only [List.cons_append, reverseTrade, if_neg hh, List.append_eq]
    rw [ih fun x hx => hp x (List.mem_cons_of_mem h hx)]

/-- A BUY on an empty holdings list creates the new holding. -/
theorem applyTrade_nil_buy (t : Trade) (ha : t.action = TAction.BUY) :
    applyTrade t [] = [⟨t.ticker, t.shares, t.price⟩] := by
  simp [applyTrade, ha]

/-- A SELL on an empty holdings list does nothing. -/
theorem applyTrade_nil_sell (t : Trade) (ha : t.action = TAction.SELL) :
    applyTrade t [] = [] := by
  simp [applyTrade, ha]

/-- A BUY on a matching head holding blends the average cost. -/
theorem applyTrade_cons_buy (t : Trade) (h : Holding) (rest : List Holding)
    (htk : h.ticker = t.ticker) (ha : t.action = TAction.BUY) :
    applyTrade t (h :: rest) =
      ⟨h.ticker, h.shares + t.shares,
        if 0 < h.shares + t.shares then
          (h.shares * h.avg_cost + t.shares * t.price) / (h.shares + t.shares)
        else h.avg_cost⟩ :: rest := by
  simp [applyTrade, htk, ha]

/-- A SELL on a matching head holding subtracts the shares, removing the
holding when the result is non-positive. -/
theorem applyTrade_cons_sell (t : Trade) (h : Holding) (rest : List Holding)
    (htk : h.ticker = t.ticker) (ha : t.action = TAction.SELL) :
    applyTrade t (h :: rest) =
      if h.shares - t.shares ≤ 0 then rest
      else ⟨h.ticker, h.shares - t.shares, h.avg_cost⟩ :: rest := by
  simp [applyTrade, htk, ha]

/-- Reversing a BUY against a matching head holding subtracts the shares,
removing the holding when the result is non-positive; the average cost is
never restored. -/
theorem reverseTrade_cons_buy (t : Trade) (h : Holding) (rest : List Holding)
    (htk : h.ticker = t.ticker) (ha : t.action = TAction.BUY) :
    reverseTrade t (h :: rest) =
      if h.shares - t.shares ≤ 0 then rest
      else ⟨h.ticker, h.shares - t.shares, h.avg_cost⟩ :: rest := by
  simp [reverseTrade, htk, ha]

/-- Reversing a SELL against a matching head holding adds the shares
back. -/
theorem reverseTrade_cons_sell (t : Trade) (h : Holding) (rest : List Holding)
    (htk : h.ticker = t.ticker) (ha : t.action = TAction.SELL) :
    reverseTrade t (h :: rest) =
      ⟨h.ticker, h.shares + t.shares, h.avg_cost⟩ :: rest := by
  simp [reverseTrade, htk, ha]

/-! ### Claim C1: reversal inverse law -/

/-- Claim C1 as stated is false: applying the BUY of 10 shares at 200 to the
consistent holding state with 10 shares at average cost 100 and then
reversing that same trade leaves the average cost at the blended 150, not at
the original 100, because the reversal only subtracts shares and never
restores `avg_cost`. -/
theorem claim_c1_counterexample :
    reverseTrade ⟨"t1", "2024-01-02", "acct1", "AAA", TAction.BUY, 10, 200, 0, ""⟩
        (applyTrade ⟨"t1", "2024-01-02", "acct1", "AAA", TAction.BUY, 10, 200, 0, ""⟩
          [⟨"AAA", 10, 100⟩]) ≠ [⟨"AAA", 10, 100⟩] := by
  simp only [applyTrade, reverseTrade]
  norm_num

/-- Claim C1, amended: `ApplyTrade(t)` followed by `ReverseTrade(t.id)`
restores the holding state exactly when `t` is a BUY for a ticker with no
existing holding, or a SELL strictly smaller than the first matching
holding's position.  (A BUY onto an existing holding leaves `avg_cost` at
the post-buy blended value, and a SELL that removes the holding is not
recreated by the reversal.) -/
theorem claim_c1_theorem (t : Trade) :
    (∀ hs : List Holding, t.action = TAction.BUY →
      (∀ x ∈ hs, x.ticker ≠ t.ticker) →
      reverseTrade t (applyTrade t hs) = hs) ∧
    (∀ (pre post : List Holding) (h : Holding), t.action = TAction.SELL →
      h.ticker = t.ticker → (∀ x ∈ pre, x.ticker ≠ t.ticker) →
      t.shares < h.shares →
      reverseTrade t (applyTrade t (pre ++ h :: post)) = pre ++ h :: post) := by
  constructor
  · intro hs ha hno
    have h1 : applyTrade t hs = hs ++ [⟨t.ticker, t.shares, t.price⟩] := by
      have := applyTrade_append_no_match t hs [] hno
      rw [List.append_nil] at this
      rw [this, applyTrade_nil_buy t ha]
    rw [h1, reverseTrade_append_no_match t hs _ hno,
      reverseTrade_cons_buy t _ [] rfl ha]
    simp
  · intro pre post h ha htk hpre hlt
    rw [applyTrade_append_no_match t pre _ hpre,
      applyTrade_cons_sell t h post htk ha,
      if_neg (by linarith : ¬ h.shares - t.shares ≤ 0),
      reverseTrade_append_no_match t pre _ hpre,
      reverseTrade_cons_sell t ⟨h.ticker, h.shares - t.shares, h.avg_cost⟩
        post htk ha, sub_add_cancel]

/-- Witness for the amended claim C1: a SELL of 5 shares out of a 10-share
holding round-trips through apply and reverse. -/
theorem claim_c1_witness :
    reverseTrade ⟨"t2", "2024-02-01", "acct1", "BBB", TAction.SELL, 5, 50, 0, ""⟩
        (applyTrade ⟨"t2", "2024-02-01", "acct1", "BBB", TAction.SELL, 5, 50, 0, ""⟩
          ([⟨"AAA", 1, 1⟩] ++ ⟨"BBB", 10, 20⟩ :: [])) =
      [⟨"AAA", 1, 1⟩] ++ ⟨"BBB", 10, 20⟩ :: [] :=
  (claim_c1_theorem _).2 [⟨"AAA", 1, 1⟩] [] ⟨"BBB", 10, 20⟩ rfl rfl
    (by decide) (by norm_num)

/-! ### Claim C3: ApplyTrade postcondition -/

/-- Claim C3: a BUY with no existing holding appends a holding priced at the
trade price; a BUY on the existing holding recomputes the weighted-average
cost and adds the shares; a SELL subtracts the shares and removes the
holding exactly when the result is non-positive (oversell included). -/
theorem claim_c3_theorem (t : Trade) :
    (∀ hs : List Holding, t.action = TAction.BUY →
      (∀ x ∈ hs, x.ticker ≠ t.ticker) →
      applyTrade t hs = hs ++ [⟨t.ticker, t.shares, t.price⟩]) ∧
    (∀ (pre post : List Holding) (h : Holding),
      (∀ x ∈ pre, x.ticker ≠ t.ticker) → h.ticker = t.ticker →
      (t.action = TAction.BUY → 0 < h.shares → 0 < t.shares →
        applyTrade t (pre ++ h :: post) =
          pre ++ ⟨h.ticker, h.shares + t.shares,
            (h.shares * h.avg_cost + t.shares * t.price) /
              (h.shares + t.shares)⟩ :: post) ∧
      (t.action = TAction.SELL → 0 < h.shares - t.shares →
        applyTrade t (pre ++ h :: post) =
          pre ++ ⟨h.ticker, h.shares - t.shares, h.avg_cost⟩ :: post) ∧
      (t.action = TAction.SELL → h.shares - t.shares ≤ 0 →
        applyTrade t (pre ++ h :: post) = pre ++ post)) := by
  refine ⟨fun hs ha hno => ?_, fun pre post h hpre htk => ⟨?_, ?_, ?_⟩⟩
  · have := applyTrade_append_no_match t hs [] hno
    rw [List.append_nil] at this
    rw [this, applyTrade_nil_buy t ha]
  · intro ha hh ht
    rw [applyTrade_append_no_match t pre _ hpre,
      applyTrade_cons_buy t h post htk ha,
      if_pos (by linarith : (0:ℚ) < h.shares + t.shares)]
  · intro ha hpos
    rw [applyTrade_append_no_match t pre _ hpre,
      applyTrade_cons_sell t h post htk ha, if_neg (by linarith)]
  · intro ha hle
    rw [applyTrade_append_no_match t pre _ hpre,
      applyTrade_cons_sell t h post htk ha, if_pos hle]

/-- Witness for claim C3: a BUY of 10 shares at 200 onto a 10-share holding
at average cost 100 yields 20 shares at the blended average cost. -/
theorem claim_c3_witness :
    applyTrade ⟨"t1", "2024-01-02", "acct1", "AAA", TAction.BUY, 10, 200, 0, ""⟩
        ([] ++ ⟨"AAA", 10, 100⟩ :: []) =
      [] ++ (⟨"AAA", 10 + 10, (10 * 100 + 10 * 200) / (10 + 10)⟩ : Holding) ::
        [] := by
  exact ((claim_c3_theorem _).2 [] [] ⟨"AAA", 10, 100⟩ (by simp) rfl).1 rfl
    (by norm_num) (by norm_num)

/-! ### Claim C2: projection consistency -/

/-- The summed share count of a trade list. -/
def sumShares (ts : List Trade) : ℚ := (ts.map Trade.shares).sum

/-- The summed `shares * price` of a trade list. -/
def sumCost (ts : List Trade) : ℚ := (ts.map fun t => t.shares * t.price).sum

theorem sumShares_nonneg (ts : List Trade)
    (h : ∀ t ∈ ts, 0 < t.shares) : 0 ≤ sumShares ts :=
  List.sum_nonneg fun x hx => by
    obtain ⟨t, ht, rfl⟩ := List.mem_map.1 hx
    exact le_of_lt (h t ht)

/-- Folding BUY trades of one ticker from an existing positive position
blends into the overall weighted average. -/
theorem applyTrades_buys (tk : String) (buys : List Trade) :
    ∀ S C : ℚ, 0 < S →
    (∀ t ∈ buys, t.ticker = tk ∧ t.action = TAction.BUY ∧ 0 < t.shares) →
    applyTrades buys [⟨tk, S, C⟩] =
      [⟨tk, S + sumShares buys,
        (S * C + sumCost buys) / (S + sumShares buys)⟩] := by
  induction buys with
  | nil =>
    intro S C hS _
    have hS0 : S ≠ 0 := ne_of_gt hS
    simp [applyTrades, sumShares, sumCost]
    field_simp
  | cons b rest ih =>
    intro S C hS hb
    obtain ⟨htk, hact, hpos⟩ := hb b (List.mem_cons_self b rest)
    have hS' : 0 < S + b.shares := by linarith
    have step : applyTrade b [⟨tk, S, C⟩] =
        [⟨tk, S + b.shares, (S * C + b.shares * b.price) / (S + b.shares)⟩] := by
      rw [applyTrade_cons_buy b ⟨tk, S, C⟩ [] htk.symm hact, if_pos hS']
    have : applyTrades (b :: rest) [⟨tk, S, C⟩] =
        applyTrades rest (applyTrade b [⟨tk, S, C⟩]) := rfl
    rw [this, step, ih (S + b.shares) _ hS'
      fun t ht => hb t (List.mem_cons_of_mem b ht)]
    have cancel : (S + b.shares) *
        ((S * C + b.shares * b.price) / (S + b.shares)) =
        S * C + b.shares * b.price := by
      field_simp
    simp only [sumShares, sumCost, List.map_cons, List.sum_cons, cancel,
      List.cons.injEq, Holding.mk.injEq, and_true, true_and]
    exact ⟨by ring, by ring⟩

/-- Folding SELL trades of one ticker that never exhaust the position
subtracts the shares and leaves the average cost untouched. -/
theorem applyTrades_sells (tk : String) (sells : List Trade) :
    ∀ S C : ℚ,
    (∀ t ∈ sells, t.ticker = tk ∧ t.action = TAction.SELL ∧ 0 < t.shares) →
    sumShares sells < S →
    applyTrades sells [⟨tk, S, C⟩] = [⟨tk, S - sumShares sells, C⟩] := by
  induction sells with
  | nil =>
    intro S C _ _
    simp [applyTrades, sumShares]
  | cons s rest ih =>
    intro S C hs hlt
    obtain ⟨htk, hact, hpos⟩ := hs s (List.mem_cons_self s rest)
    have hrest : ∀ t ∈ rest, t.ticker = tk ∧ t.action = TAction.SELL ∧
        0 < t.shares := fun t ht => hs t (List.mem_cons_of_mem s ht)
    have hrest0 : 0 ≤ sumShares rest :=
      sumShares_nonneg rest fun t ht => (hrest t ht).2.2
    have hsum : sumShares (s :: rest) = s.shares + sumShares rest := by
      simp [sumShares]
    have hlt' : s.shares + sumShares rest < S := by rw [← hsum]; exact hlt
    have step : applyTrade s [⟨tk, S, C⟩] = [⟨tk, S - s.shares, C⟩] := by
      rw [applyTrade_cons_sell s ⟨tk, S, C⟩ [] htk.symm hact,
        if_neg (by simp only; linarith)]
    have : applyTrades (s :: rest) [⟨tk, S, C⟩] =
        applyTrades rest (applyTrade s [⟨tk, S, C⟩]) := rfl
    rw [this, step, ih (S - s.shares) C hrest (by linarith), hsum]
    congr 2
    ring

/-- Claim C2 as stated is false: over the sequence BUY 10 at 100, SELL 5,
BUY 10 at 200 for one ticker, the holding ends with `avg_cost = 500/3`,
while the weighted average of the BUY trades alone is
`(10*100 + 10*200) / (10+10) = 150` — a BUY after a SELL blends against the
post-sell share count, so SELLs do influence later average costs. -/
theorem claim_c2_counterexample :
    applyTrades
        [⟨"t1", "2024-01-01", "a", "AAA", TAction.BUY, 10, 100, 0, ""⟩,
         ⟨"t2", "2024-01-02", "a", "AAA", TAction.SELL, 5, 120, 0, ""⟩,
         ⟨"t3", "2024-01-03", "a", "AAA", TAction.BUY, 10, 200, 0, ""⟩] [] =
      [⟨"AAA", 15, 500 / 3⟩] ∧
    (500 / 3 : ℚ) ≠ (10 * 100 + 10 * 200) / (10 + 10) := by
  constructor
  · norm_num [applyTrades, applyTrade]
  · norm_num

/-- Claim C2, amended: when every BUY precedes every SELL, every trade has
positive shares, and the SELLs do not exhaust the position, the resulting
holding's shares equal total BUY shares minus total SELL shares and its
`avg_cost` is the weighted average of the BUY fills; with a BUY after a
SELL, `avg_cost` can instead blend against the post-sell share count. -/
theorem claim_c2_theorem (tk : String) (buys sells : List Trade)
    (hb : ∀ t ∈ buys, t.ticker = tk ∧ t.action = TAction.BUY ∧ 0 < t.shares)
    (hs : ∀ t ∈ sells, t.ticker = tk ∧ t.action = TAction.SELL ∧ 0 < t.shares)
    (hne : buys ≠ [])
    (hlt : sumShares sells < sumShares buys) :
    applyTrades (buys ++ sells) [] =
      [⟨tk, sumShares buys - sumShares sells,
        sumCost buys / sumShares buys⟩] := by
  cases buys with
  | nil => exact absurd rfl hne
  | cons b rest =>
    obtain ⟨htk, hact, hpos⟩ := hb b (List.mem_cons_self b rest)
    have happ : applyTrades ((b :: rest) ++ sells) [] =
        applyTrades sells (applyTrades (b :: rest) []) := by
      simp [applyTrades, List.foldl_append]
    have h0 : applyTrades (b :: rest) [] =
        applyTrades rest [⟨tk, b.shares, b.price⟩] := by
      have : applyTrade b [] = [⟨tk, b.shares, b.price⟩] := by
        rw [applyTrade_nil_buy b hact, htk]
      simp only [applyTrades, List.foldl_cons]
      rw [← this]
    have hfold : applyTrades (b :: rest) [] =
        [⟨tk, sumShares (b :: rest),
          sumCost (b :: rest) / sumShares (b :: rest)⟩] := by
      rw [h0, applyTrades_buys tk rest b.shares b.price hpos
        fun t ht => hb t (List.mem_cons_of_mem b ht)]
      simp [sumShares, sumCost]
    rw [happ, hfold, applyTrades_sells tk sells _ _ hs hlt]

/-- Witness for the amended claim C2: BUY 10 at 100 then BUY 10 at 200 then
SELL 15 leaves 5 shares at the BUY-weighted average cost 150. -/
theorem claim_c2_witness :
    applyTrades
        ([⟨"w1", "2024-01-01", "a", "AAA", TAction.BUY, 10, 100, 0, ""⟩,
          ⟨"w2", "2024-01-02", "a", "AAA", TAction.BUY, 10, 200, 0, ""⟩] ++
         [⟨"w3", "2024-01-03", "a", "AAA", TAction.SELL, 15, 130, 0, ""⟩]) [] =
      [⟨"AAA",
        sumShares [⟨"w1", "2024-01-01", "a", "AAA", TAction.BUY, 10, 100, 0, ""⟩,
          ⟨"w2", "2024-01-02", "a", "AAA", TAction.BUY, 10, 200, 0, ""⟩] -
          sumShares [⟨"w3", "2024-01-03", "a", "AAA", TAction.SELL, 15, 130, 0, ""⟩],
        sumCost [⟨"w1", "2024-01-01", "a", "AAA", TAction.BUY, 10, 100, 0, ""⟩,
          ⟨"w2", "2024-01-02", "a", "AAA", TAction.BUY, 10, 200, 0, ""⟩] /
          sumShares [⟨"w1", "2024-01-01", "a", "AAA", TAction.BUY, 10, 100, 0, ""⟩,
            ⟨"w2", "2024-01-02", "a", "AAA", TAction.BUY, 10, 200, 0, ""⟩]⟩] := by
  apply claim_c2_theorem
  · intro t ht
    fin_cases ht <;> exact ⟨rfl, rfl, by norm_num⟩
  · intro t ht
    fin_cases ht <;> exact ⟨rfl, rfl, by norm_num⟩
  · simp
  · norm_num [sumShares]

/-! ### Lemmas on the FIFO lot matching -/

/-- Total unconsumed shares across a list of lots. -/
def sumRem (lots : List Lot) : ℚ := (lots.map Lot.remaining).sum

/-- Total cost of the unconsumed shares across a list of lots. -/
def sumRemCost (lots : List Lot) : ℚ :=
  (lots.map fun l => l.remaining * l.price).sum

theorem sumRem_nonneg (lots : List Lot)
    (h : ∀ l ∈ lots, 0 ≤ l.remaining) : 0 ≤ sumRem lots :=
  List.sum_nonneg fun x hx => by
    obtain ⟨l, hl, rfl⟩ := List.mem_map.1 hx
    exact h l hl

/-- `sumRem` of a cons. -/
theorem sumRem_cons (l : Lot) (ls : List Lot) :
    sumRem (l :: ls) = l.remaining + sumRem ls := by
  simp [sumRem]

/-- `sumRemCost` of a cons. -/
theorem sumRemCost_cons (l : Lot) (ls : List Lot) :
    sumRemCost (l :: ls) = l.remaining * l.price + sumRemCost ls := by
  simp [sumRemCost]

/-- One `consumeLots` pass conserves cost (matched cost plus what stays on
the lots equals what was on the lots), keeps remainders non-negative, and
consumes exactly `min s (sumRem lots)` shares. -/
theorem consumeLots_spec (lots : List Lot) :
    ∀ s : ℚ, 0 ≤ s → (∀ l ∈ lots, 0 ≤ l.remaining) →
    (consumeLots s lots).1 + sumRemCost (consumeLots s lots).2 =
        sumRemCost lots ∧
    (∀ l ∈ (consumeLots s lots).2, 0 ≤ l.remaining) ∧
    sumRem (consumeLots s lots).2 = sumRem lots - min s (sumRem lots) := by
  induction lots with
  | nil =>
    intro s hs _
    refine ⟨by simp [consumeLots, sumRemCost], by simp [consumeLots], ?_⟩
    simp [consumeLots, sumRem, min_eq_right hs]
  | cons lot rest ih =>
    intro s hs hnn
    have hlot : 0 ≤ lot.remaining := hnn lot (List.mem_cons_self lot rest)
    have hrest : ∀ l ∈ rest, 0 ≤ l.remaining :=
      fun l hl => hnn l (List.mem_cons_of_mem lot hl)
    have hrestsum : 0 ≤ sumRem rest := sumRem_nonneg rest hrest
    by_cases h1 : s ≤ 0
    · have hs0 : s = 0 := le_antisymm h1 hs
      subst hs0
      have hmin : min (0:ℚ) (sumRem (lot :: rest)) = 0 :=
        min_eq_left (sumRem_nonneg _ hnn)
      refine ⟨by simp [consumeLots], by simpa [consumeLots] using hnn, ?_⟩
      simp [consumeLots, hmin]
    · by_cases h2 : lot.remaining ≤ 0
      · have hr0 : lot.remaining = 0 := le_antisymm h2 hlot
        obtain ⟨ihc, ihn, ihr⟩ := ih s hs hrest
        have hstep : consumeLots s (lot :: rest) =
            ((consumeLots s rest).1, lot :: (consumeLots s rest).2) := by
          simp [consumeLots, h1, h2]
        refine ⟨?_, ?_, ?_⟩
        · rw [hstep]
          rw [sumRemCost_cons, sumRemCost_cons, hr0]
          simp only [zero_mul, zero_add]
          linarith
        · rw [hstep]
          intro l hl
          rcases List.mem_cons.1 hl with rfl | hl2
          · exact hlot
          · exact ihn l hl2
        · rw [hstep]
          rw [sumRem_cons, sumRem_cons, hr0, ihr]
          simp only [zero_add]
      · push_neg at h1 h2
        have hused_rem : min lot.remaining s ≤ lot.remaining := min_le_left _ _
        have hused_s : min lot.remaining s ≤ s := min_le_right _ _
        have hs2 : 0 ≤ s - min lot.remaining s := by linarith
        obtain ⟨ihc, ihn, ihr⟩ := ih (s - min lot.remaining s) hs2 hrest
        have hstep : consumeLots s (lot :: rest) =
            (min lot.remaining s * lot.price +
              (consumeLots (s - min lot.remaining s) rest).1,
             ⟨lot.shares, lot.price, lot.remaining - min lot.remaining s⟩ ::
              (consumeLots (s - min lot.remaining s) rest).2) := by
          simp [consumeLots, not_le.2 h1, not_le.2 h2]
        refine ⟨?_, ?_, ?_⟩
        · rw [hstep, sumRemCost_cons]
          dsimp only
          have expand : (lot.remaining - min lot.remaining s) * lot.price =
              lot.remaining * lot.price - min lot.remaining s * lot.price := by
            ring
          rw [expand, sumRemCost_cons]
          linarith
        · rw [hstep]
          intro l hl
          rcases List.mem_cons.1 hl with rfl | hl2
          · dsimp only
            linarith
          · exact ihn l hl2
        · rw [hstep, sumRem_cons]
          dsimp only
          rw [ihr, sumRem_cons]
          rcases le_total lot.remaining s with hc | hc
          · rw [min_eq_left hc]
            rcases le_total (s - lot.remaining) (sumRem rest) with hd | hd
            · rw [min_eq_left hd,
                min_eq_left (by linarith : s ≤ lot.remaining + sumRem rest)]
              ring
            · rw [min_eq_right hd,
                min_eq_right (by linarith : lot.remaining + sumRem rest ≤ s)]
              ring
          · rw [min_eq_right hc, sub_self, min_eq_left hrestsum,
              min_eq_left (by linarith : s ≤ lot.remaining + sumRem rest)]
            ring

/-- When the total remaining is non-positive and every remainder is
non-negative, every lot is exhausted and the remaining cost is zero. -/
theorem sumRemCost_eq_zero (lots : List Lot)
    (hnn : ∀ l ∈ lots, 0 ≤ l.remaining) (hle : sumRem lots ≤ 0) :
    sumRemCost lots = 0 := by
  induction lots with
  | nil => simp [sumRemCost]
  | cons lot rest ih =>
    have hlot : 0 ≤ lot.remaining := hnn lot (List.mem_cons_self lot rest)
    have hrest : ∀ l ∈ rest, 0 ≤ l.remaining :=
      fun l hl => hnn l (List.mem_cons_of_mem lot hl)
    have hrestsum : 0 ≤ sumRem rest := sumRem_nonneg rest hrest
    have hsum : sumRem (lot :: rest) = lot.remaining + sumRem rest := by
      simp [sumRem]
    rw [hsum] at hle
    have h0 : lot.remaining = 0 := by linarith
    have h1 : sumRem rest ≤ 0 := by linarith
    simp only [sumRemCost, List.map_cons, List.sum_cons, h0, zero_mul,
      zero_add]
    exact ih hrest h1

/-- When the SELL events total at least the available remaining shares, the
FIFO matching consumes every lot and the matched cost basis is the whole
remaining cost of the lots. -/
theorem fifoCost_exhaust (sells : List SellEv) :
    ∀ lots : List Lot, (∀ l ∈ lots, 0 ≤ l.remaining) →
    (∀ s ∈ sells, 0 ≤ s.shares) →
    sumRem lots ≤ (sells.map SellEv.shares).sum →
    fifoCost sells lots = sumRemCost lots := by
  induction sells with
  | nil =>
    intro lots hnn _ hle
    simp only [List.map_nil, List.sum_nil] at hle
    simp [fifoCost, sumRemCost_eq_zero lots hnn hle]
  | cons s rest ih =>
    intro lots hnn hss hle
    have hs0 : 0 ≤ s.shares := hss s (List.mem_cons_self s rest)
    have hrestss : ∀ x ∈ rest, 0 ≤ x.shares :=
      fun x hx => hss x (List.mem_cons_of_mem s hx)
    have hrestsum : 0 ≤ (rest.map SellEv.shares).sum :=
      List.sum_nonneg fun x hx => by
        obtain ⟨e, he, rfl⟩ := List.mem_map.1 hx
        exact hrestss e he
    obtain ⟨hc, hn, hr⟩ := consumeLots_spec lots s.shares hs0 hnn
    have hsum : (List.map SellEv.shares (s :: rest)).sum =
        s.shares + (rest.map SellEv.shares).sum := by simp
    rw [hsum] at hle
    have hle2 : sumRem (consumeLots s.shares lots).2 ≤
        (rest.map SellEv.shares).sum := by
      rw [hr]
      rcases le_total s.shares (sumRem lots) with hm | hm
      · rw [min_eq_left hm]; linarith
      · rw [min_eq_right hm]; linarith
    have : fifoCost (s :: rest) lots =
        (consumeLots s.shares lots).1 +
          fifoCost rest (consumeLots s.shares lots).2 := rfl
    rw [this, ih (consumeLots s.shares lots).2 hn hrestss hle2]
    linarith

/-! ### Bridging sums over lots, sells and trade filters -/

theorem sumRem_buysOf (tk : String) (ts : List Trade) :
    sumRem (buysOf tk ts) =
      sumShares (ts.filter fun t => t.ticker = tk ∧ t.action = TAction.BUY) := by
  simp only [sumRem, buysOf, sumShares, List.map_map]
  rfl

theorem sumRemCost_buysOf (tk : String) (ts : List Trade) :
    sumRemCost (buysOf tk ts) =
      sumCost (ts.filter fun t => t.ticker = tk ∧ t.action = TAction.BUY) := by
  simp only [sumRemCost, buysOf, sumCost, List.map_map]
  rfl

theorem sellsOf_shares_sum (tk : String) (ts : List Trade) :
    ((sellsOf tk ts).map SellEv.shares).sum =
      sumShares (ts.filter fun t => t.ticker = tk ∧ t.action = TAction.SELL) := by
  simp only [sellsOf, sumShares, List.map_map]
  rfl

theorem sellsOf_proceeds_sum (tk : String) (ts : List Trade) :
    ((sellsOf tk ts).map fun s => s.shares * s.price).sum =
      sumCost (ts.filter fun t => t.ticker = tk ∧ t.action = TAction.SELL) := by
  simp only [sellsOf, sumCost, List.map_map]
  rfl

theorem sumShares_perm {l1 l2 : List Trade} (h : l1.Perm l2) :
    sumShares l1 = sumShares l2 :=
  (h.map Trade.shares).sum_eq

theorem sumCost_perm {l1 l2 : List Trade} (h : l1.Perm l2) :
    sumCost l1 = sumCost l2 := by
  unfold sumCost
  exact (h.map _).sum_eq

theorem sortTrades_perm (ts : List Trade) : (sortTrades ts).Perm ts :=
  List.perm_insertionSort _ ts

/-! ### Claim C4: FIFO determinism -/

/-- Claim C4: on BUY(10 at 100), BUY(10 at 110), SELL(15 at 130) for one
ticker the FIFO computation returns cost basis 1550, proceeds 1950 and gain
400; and on any trade list, every emitted record satisfies
`gain = proceeds - cost_basis`. -/
theorem claim_c4_theorem :
    calculate_realized_gains
        [⟨"t1", "2024-01-01", "a", "X", TAction.BUY, 10, 100, 0, ""⟩,
         ⟨"t2", "2024-01-02", "a", "X", TAction.BUY, 10, 110, 0, ""⟩,
         ⟨"t3", "2024-01-03", "a", "X", TAction.SELL, 15, 130, 0, ""⟩] =
      [("X", ⟨15, 1550, 1950, 400⟩)] ∧
    ∀ (trades : List Trade) (tk : String) (r : GainRecord),
      (tk, r) ∈ calculate_realized_gains trades →
        r.gain = r.proceeds - r.cost_basis := by
  constructor
  · simp +decide [calculate_realized_gains, gainEntry, sortTrades,
      List.insertionSort, List.orderedInsert, List.dedup, List.pwFilter,
      buysOf, sellsOf, tradeLot, fifoCost, consumeLots]
    norm_num
  · intro trades tk r hmem
    obtain ⟨a, _, hfa⟩ := List.mem_filterMap.1 hmem
    simp only [gainEntry] at hfa
    split_ifs at hfa
    simp only [Option.some.injEq, Prod.mk.injEq] at hfa
    rw [← hfa.2]

/-- Witness for claim C4's general clause, at the record the concrete FIFO
example produces. -/
theorem claim_c4_witness :
    (⟨15, 1550, 1950, 400⟩ : GainRecord).gain =
      (⟨15, 1550, 1950, 400⟩ : GainRecord).proceeds -
        (⟨15, 1550, 1950, 400⟩ : GainRecord).cost_basis :=
  claim_c4_theorem.2
    [⟨"t1", "2024-01-01", "a", "X", TAction.BUY, 10, 100, 0, ""⟩,
     ⟨"t2", "2024-01-02", "a", "X", TAction.BUY, 10, 110, 0, ""⟩,
     ⟨"t3", "2024-01-03", "a", "X", TAction.SELL, 15, 130, 0, ""⟩]
    "X" ⟨15, 1550, 1950, 400⟩
    (by rw [claim_c4_theorem.1]; exact List.mem_singleton_self _)

/-! ### Claim C9: oversell is not rejected -/

/-- Claim C9: when a ticker's SELL shares exceed its total BUY shares (all
shares positive), the computation still emits a record for the ticker: the
proceeds cover the full SELL quantity, while the cost basis is only the
matched portion  -- here the whole cost of all BUY lots, the unmatched SELL
shares contributing zero. -/
theorem claim_c9_theorem (trades : List Trade) (tk : String)
    (hpos : ∀ t ∈ trades, t.ticker = tk → 0 < t.shares)
    (hsell : ∃ t ∈ trades, t.ticker = tk ∧ t.action = TAction.SELL)
    (hover : sumShares
        (trades.filter fun t => t.ticker = tk ∧ t.action = TAction.BUY) <
      sumShares
        (trades.filter fun t => t.ticker = tk ∧ t.action = TAction.SELL)) :
    (tk,
      (⟨sumShares
          (trades.filter fun t => t.ticker = tk ∧ t.action = TAction.SELL),
        sumCost
          (trades.filter fun t => t.ticker = tk ∧ t.action = TAction.BUY),
        sumCost
          (trades.filter fun t => t.ticker = tk ∧ t.action = TAction.SELL),
        sumCost
          (trades.filter fun t => t.ticker = tk ∧ t.action = TAction.SELL) -
        sumCost
          (trades.filter fun t => t.ticker = tk ∧ t.action = TAction.BUY)⟩ :
        GainRecord)) ∈ calculate_realized_gains trades := by
  obtain ⟨t0, ht0m, ht0tk, ht0act⟩ := hsell
  have hperm := sortTrades_perm trades
  have hpermS : ((sortTrades trades).filter
      fun t => t.ticker = tk ∧ t.action = TAction.SELL).Perm
      (trades.filter fun t => t.ticker = tk ∧ t.action = TAction.SELL) :=
    hperm.filter _
  have hpermB : ((sortTrades trades).filter
      fun t => t.ticker = tk ∧ t.action = TAction.BUY).Perm
      (trades.filter fun t => t.ticker = tk ∧ t.action = TAction.BUY) :=
    hperm.filter _
  have hsharesS := sumShares_perm hpermS
  have hsharesB := sumShares_perm hpermB
  have hcostS := sumCost_perm hpermS
  have hcostB := sumCost_perm hpermB
  have ht0sorted : t0 ∈ sortTrades trades := hperm.mem_iff.2 ht0m
  have ht0filter : t0 ∈ (sortTrades trades).filter
      (fun t => t.ticker = tk ∧ t.action = TAction.SELL) :=
    List.mem_filter.2 ⟨ht0sorted, by simp [ht0tk, ht0act]⟩
  have hsne : sellsOf tk (sortTrades trades) ≠ [] := by
    intro hcontra
    have hm : (⟨t0.shares, t0.price⟩ : SellEv) ∈
        sellsOf tk (sortTrades trades) :=
      List.mem_map.2 ⟨t0, ht0filter, rfl⟩
    rw [hcontra] at hm
    exact absurd hm (List.not_mem_nil _)
  have hBnonneg : 0 ≤ sumShares
      (trades.filter fun t => t.ticker = tk ∧ t.action = TAction.BUY) := by
    apply sumShares_nonneg
    intro t ht
    obtain ⟨htm, hcond⟩ := List.mem_filter.1 ht
    simp only [decide_eq_true_eq] at hcond
    exact hpos t htm hcond.1
  have hsold : 0 < ((sellsOf tk (sortTrades trades)).map SellEv.shares).sum := by
    rw [sellsOf_shares_sum, hsharesS]
    linarith
  have hlotsnn : ∀ l ∈ buysOf tk (sortTrades trades), 0 ≤ l.remaining := by
    intro l hl
    obtain ⟨t, htf, rfl⟩ := List.mem_map.1 hl
    obtain ⟨htm, hcond⟩ := List.mem_filter.1 htf
    simp only [decide_eq_true_eq] at hcond
    exact le_of_lt (hpos t (hperm.mem_iff.1 htm) hcond.1)
  have hsellnn : ∀ s ∈ sellsOf tk (sortTrades trades), 0 ≤ s.shares := by
    intro s hsm
    obtain ⟨t, htf, rfl⟩ := List.mem_map.1 hsm
    obtain ⟨htm, hcond⟩ := List.mem_filter.1 htf
    simp only [decide_eq_true_eq] at hcond
    exact le_of_lt (hpos t (hperm.mem_iff.1 htm) hcond.1)
  have hcost : fifoCost (sellsOf tk (sortTrades trades))
      (buysOf tk (sortTrades trades)) =
      sumCost (trades.filter fun t => t.ticker = tk ∧
        t.action = TAction.BUY) := by
    rw [fifoCost_exhaust _ _ hlotsnn hsellnn
      (by rw [sumRem_buysOf, sellsOf_shares_sum, hsharesB, hsharesS]; linarith),
      sumRemCost_buysOf, hcostB]
  apply List.mem_filterMap.2
  refine ⟨tk, List.mem_dedup.2 (List.mem_map.2 ⟨t0, ht0sorted, ht0tk⟩), ?_⟩
  simp only [gainEntry]
  rw [if_neg hsne, if_pos hsold, hcost, sellsOf_shares_sum, hsharesS,
    sellsOf_proceeds_sum, hcostS]

/-- Witness for claim C9: BUY 10 at 100 then SELL 15 at 130 still yields a
record, with cost basis 1000 (the whole lot) and proceeds 1950. -/
theorem claim_c9_witness :
    ("X",
      (⟨sumShares
          ([⟨"t1", "2024-01-01", "a", "X", TAction.BUY, 10, 100, 0, ""⟩,
            ⟨"t2", "2024-01-02", "a", "X", TAction.SELL, 15, 130, 0, ""⟩].filter
            fun t => t.ticker = "X" ∧ t.action = TAction.SELL),
        sumCost
          ([⟨"t1", "2024-01-01", "a", "X", TAction.BUY, 10, 100, 0, ""⟩,
            ⟨"t2", "2024-01-02", "a", "X", TAction.SELL, 15, 130, 0, ""⟩].filter
            fun t => t.ticker = "X" ∧ t.action = TAction.BUY),
        sumCost
          ([⟨"t1", "2024-01-01", "a", "X", TAction.BUY, 10, 100, 0, ""⟩,
            ⟨"t2", "2024-01-02", "a", "X", TAction.SELL, 15, 130, 0, ""⟩].filter
            fun t => t.ticker = "X" ∧ t.action = TAction.SELL),
        sumCost
          ([⟨"t1", "2024-01-01", "a", "X", TAction.BUY, 10, 100, 0, ""⟩,
            ⟨"t2", "2024-01-02", "a", "X", TAction.SELL, 15, 130, 0, ""⟩].filter
            fun t => t.ticker = "X" ∧ t.action = TAction.SELL) -
        sumCost
          ([⟨"t1", "2024-01-01", "a", "X", TAction.BUY, 10, 100, 0, ""⟩,
            ⟨"t2", "2024-01-02", "a", "X", TAction.SELL, 15, 130, 0, ""⟩].filter
            fun t => t.ticker = "X" ∧ t.action = TAction.BUY)⟩ :
        GainRecord)) ∈ calculate_realized_gains
      [⟨"t1", "2024-01-01", "a", "X", TAction.BUY, 10, 100, 0, ""⟩,
       ⟨"t2", "2024-01-02", "a", "X", TAction.SELL, 15, 130, 0, ""⟩] := by
  apply claim_c9_theorem
  · intro t ht
    fin_cases ht <;> intro _ <;> norm_num
  · exact ⟨⟨"t2", "2024-01-02", "a", "X", TAction.SELL, 15, 130, 0, ""⟩,
      by simp, rfl, rfl⟩
  · simp +decide [sumShares]

/-! ### Claim C5: alert monotonicity -/

/-- The ABOVE-200 alert of the spec's quote-sequence example. -/
def alertX : Alert := ⟨"a1", "X", "ABOVE", 200, "2024-01-01", false, none⟩

/-- Claim C5: an active alert triggers exactly when ABOVE meets
`price ≥ target` or BELOW meets `price ≤ target`; triggered alerts are never
re-evaluated; repeated evaluation without user action is idempotent; and on
the quote sequence 190, 205, 180 the ABOVE-200 alert stays untriggered,
triggers, and remains triggered. -/
theorem claim_c5_theorem :
    (∀ (q : String → Option ℚ) (today : String) (a : Alert) (p : ℚ),
      a.triggered = false → q a.ticker = some p →
      ((checkAlert q today a).triggered = true ↔
        (a.condType = "ABOVE" ∧ a.target_price ≤ p) ∨
        (a.condType = "BELOW" ∧ p ≤ a.target_price))) ∧
    (∀ (q : String → Option ℚ) (today : String) (a : Alert),
      a.triggered = true → checkAlert q today a = a) ∧
    (∀ (q : String → Option ℚ) (today1 today2 : String)
      (alerts : List Alert),
      evaluateAlerts q today2 (evaluateAlerts q today1 alerts) =
        evaluateAlerts q today1 alerts) ∧
    ((evaluateAlerts (fun _ => some 190) "2024-03-01" [alertX]).map
        Alert.triggered = [false] ∧
      (evaluateAlerts (fun _ => some 205) "2024-03-02"
        (evaluateAlerts (fun _ => some 190) "2024-03-01" [alertX])).map
        Alert.triggered = [true] ∧
      (evaluateAlerts (fun _ => some 180) "2024-03-03"
        (evaluateAlerts (fun _ => some 205) "2024-03-02"
          (evaluateAlerts (fun _ => some 190) "2024-03-01" [alertX]))).map
        Alert.triggered = [true]) := by
  refine ⟨?_, ?_, ?_, ?_⟩
  · intro q today a p ht hq
    simp only [checkAlert, ht, Bool.false_eq_true, if_false, hq]
    split_ifs with h1 h2
    · simp [h1]
    · simp [h2]
    · simp only [ht, Bool.false_eq_true, false_iff]
      intro hc
      exact hc.elim h1 h2
  · intro q today a ht
    simp [checkAlert, ht]
  · intro q t1 t2 alerts
    unfold evaluateAlerts
    rw [List.map_map]
    apply List.map_congr_left
    intro a _
    simp only [Function.comp_apply]
    by_cases ht : a.triggered
    · simp [checkAlert, ht]
    · cases hq : q a.ticker with
      | none => simp [checkAlert, ht, hq]
      | some p =>
        by_cases h1 : a.condType = "ABOVE" ∧ a.target_price ≤ p
        · simp [checkAlert, ht, hq, h1]
        · by_cases h2 : a.condType = "BELOW" ∧ p ≤ a.target_price
          · simp [checkAlert, ht, hq, h1, h2]
          · simp [checkAlert, ht, hq, h1, h2]
  · refine ⟨?_, ?_, ?_⟩ <;>
      simp +decide [evaluateAlerts, checkAlert, alertX]

/-- Witness for claim C5: a triggered alert is left untouched by another
evaluation. -/
theorem claim_c5_witness :
    checkAlert (fun _ => some 100) "2024-03-04"
        ⟨"a2", "Y", "ABOVE", 50, "2024-01-01", true, some "2024-01-02"⟩ =
      ⟨"a2", "Y", "ABOVE", 50, "2024-01-01", true, some "2024-01-02"⟩ :=
  claim_c5_theorem.2.1 _ "2024-03-04" _ rfl

/-! ### Claim C7: rebalance suggestions -/

/-- `suggestionFor` characterised: a suggestion appears exactly when the
deviation beats the threshold. -/
theorem suggestionFor_some_iff (hv tg : List (String × ℚ)) (th tot : ℚ)
    (tk : String) (s : Suggestion) :
    suggestionFor hv tg th tot tk = some s ↔
      th < |valueAt hv tk / tot * 100 - valueAt tg tk| ∧
      s = (if 0 < valueAt hv tk / tot * 100 - valueAt tg tk then
            ⟨TAction.SELL,
              (valueAt hv tk / tot * 100 - valueAt tg tk) / 100 * tot, tk⟩
          else
            ⟨TAction.BUY,
              |(valueAt hv tk / tot * 100 - valueAt tg tk) / 100| * tot,
              tk⟩) := by
  simp only [suggestionFor]
  by_cases hcond : th < |valueAt hv tk / tot * 100 - valueAt tg tk|
  · rw [if_pos hcond, Option.some.injEq]
    exact ⟨fun h => ⟨hcond, h.symm⟩, fun h => h.2.symm⟩
  · rw [if_neg hcond]
    simp [hcond]

/-- Every emitted suggestion carries the ticker of the union entry it came
from. -/
theorem suggestionFor_ticker (hv tg : List (String × ℚ)) (th tot : ℚ)
    (tk : String) (s : Suggestion)
    (h : suggestionFor hv tg th tot tk = some s) : s.ticker = tk := by
  obtain ⟨_, rfl⟩ := (suggestionFor_some_iff hv tg th tot tk s).1 h
  split_ifs with h2
  · rfl
  · rfl

/-- Claim C7: with a positive total value, a ticker of the union receives a
suggestion exactly when `abs(diff) > threshold`; an emitted suggestion is a
SELL of `diff/100 * total` dollars when `diff > 0` and otherwise a BUY of
`abs(diff)/100 * total` dollars. -/
theorem claim_c7_theorem (hv tg : List (String × ℚ)) (th tot : ℚ)
    (htot : 0 < tot) :
    (∀ tk ∈ tickerUnion hv tg,
      ((∃ s ∈ rebalanceSuggestions hv tg th tot, s.ticker = tk) ↔
        th < |valueAt hv tk / tot * 100 - valueAt tg tk|)) ∧
    (∀ s ∈ rebalanceSuggestions hv tg th tot,
      th < |valueAt hv s.ticker / tot * 100 - valueAt tg s.ticker| ∧
      (0 < valueAt hv s.ticker / tot * 100 - valueAt tg s.ticker →
        s = ⟨TAction.SELL,
          (valueAt hv s.ticker / tot * 100 - valueAt tg s.ticker) / 100 * tot,
          s.ticker⟩) ∧
      (¬ 0 < valueAt hv s.ticker / tot * 100 - valueAt tg s.ticker →
        s = ⟨TAction.BUY,
          |valueAt hv s.ticker / tot * 100 - valueAt tg s.ticker| / 100 * tot,
          s.ticker⟩)) := by
  constructor
  · intro tk hmem
    constructor
    · rintro ⟨s, hs, rfl⟩
      obtain ⟨a, _, hfa⟩ := List.mem_filterMap.1 hs
      have hta := suggestionFor_ticker hv tg th tot a s hfa
      obtain ⟨hcond, _⟩ := (suggestionFor_some_iff hv tg th tot a s).1 hfa
      rw [hta]
      exact hcond
    · intro hcond
      refine ⟨_, List.mem_filterMap.2
        ⟨tk, hmem, (suggestionFor_some_iff hv tg th tot tk _).2
          ⟨hcond, rfl⟩⟩, ?_⟩
      split_ifs with h2
      · rfl
      · rfl
  · intro s hs
    obtain ⟨a, _, hfa⟩ := List.mem_filterMap.1 hs
    have hta := suggestionFor_ticker hv tg th tot a s hfa
    subst hta
    obtain ⟨hcond, hseq⟩ := (suggestionFor_some_iff hv tg th tot _ s).1 hfa
    refine ⟨hcond, fun hpos => ?_, fun hneg => ?_⟩
    · rw [hseq, if_pos hpos]
    · rw [hseq, if_neg hneg]
      have habs : |(valueAt hv s.ticker / tot * 100 - valueAt tg s.ticker) /
          100| = |valueAt hv s.ticker / tot * 100 - valueAt tg s.ticker| /
          100 := by
        rw [abs_div]
        norm_num
      rw [habs]

/-- Witness for claim C7, the spec's boundary example: with threshold 5 and
total value 100, a ticker at 26 percent actual against a 20 percent target
(diff 6) receives a suggestion, since 5 < 6; its companion at diff 4 can be
checked against the same equivalence. -/
theorem claim_c7_witness :
    (0:ℚ) < 100 ∧
    ((∃ s ∈ rebalanceSuggestions [("A", 26), ("B", 24), ("C", 50)]
        [("A", 20), ("B", 20), ("C", 50)] 5 100, s.ticker = "A") ↔
      (5:ℚ) < |valueAt [("A", 26), ("B", 24), ("C", 50)] "A" / 100 * 100 -
        valueAt [("A", 20), ("B", 20), ("C", 50)] "A"|) :=
  ⟨by norm_num,
    (claim_c7_theorem [("A", 26), ("B", 24), ("C", 50)]
      [("A", 20), ("B", 20), ("C", 50)] 5 100 (by norm_num)).1 "A"
      (by simp +decide [tickerUnion])⟩

/-! ### Claim C8: trend-series bucketing -/

/-- The total contribution of every sample with bucket key `k`, across all
tickers, repeated samples included. -/
def totalAt (k : String) (ts : List TickerData) : ℚ :=
  (ts.map fun td =>
    ((td.samples.filter fun s => s.1 = k).map fun s => s.2 * td.shares).sum).sum

theorem valueAt_addSample (m : List (String × ℚ)) (k k1 : String) (v : ℚ) :
    valueAt (addSample m k v) k1 =
      if k1 = k then valueAt m k1 + v else valueAt m k1 := by
  induction m with
  | nil =>
    show (if k = k1 then v else 0) = if k1 = k then 0 + v else 0
    by_cases h : k1 = k
    · rw [if_pos h.symm, if_pos h, zero_add]
    · rw [if_neg (fun hc => h hc.symm), if_neg h]
  | cons p rest ih =>
    by_cases hpk : p.1 = k
    · simp only [addSample]
      rw [if_pos hpk]
      show (if p.1 = k1 then p.2 + v else valueAt rest k1) =
        if k1 = k then (if p.1 = k1 then p.2 else valueAt rest k1) + v
        else (if p.1 = k1 then p.2 else valueAt rest k1)
      by_cases hk1 : k1 = k
      · have hp1 : p.1 = k1 := hpk.trans hk1.symm
        rw [if_pos hp1, if_pos hk1, if_pos hp1]
      · have hp1 : ¬ p.1 = k1 := fun hc => hk1 (hc ▸ hpk)
        rw [if_neg hp1, if_neg hk1, if_neg hp1]
    · simp only [addSample]
      rw [if_neg hpk]
      show (if p.1 = k1 then p.2 else valueAt (addSample rest k v) k1) =
        if k1 = k then (if p.1 = k1 then p.2 else valueAt rest k1) + v
        else (if p.1 = k1 then p.2 else valueAt rest k1)
      by_cases hp1 : p.1 = k1
      · have hk1 : ¬ k1 = k := fun hc => hpk (hp1.trans hc)
        rw [if_pos hp1, if_neg hk1, if_pos hp1]
      · rw [if_neg hp1, if_neg hp1, ih]

theorem mem_keys_addSample (m : List (String × ℚ)) (k k1 : String) (v : ℚ) :
    k1 ∈ (addSample m k v).map Prod.fst ↔
      k1 = k ∨ k1 ∈ m.map Prod.fst := by
  induction m with
  | nil => simp [addSample, eq_comm]
  | cons p rest ih =>
    by_cases hpk : p.1 = k
    · subst hpk
      have hkeys : (addSample (p :: rest) p.1 v).map Prod.fst =
          p.1 :: rest.map Prod.fst := by
        simp [addSample]
      rw [hkeys]
      simp only [List.map_cons, List.mem_cons]
      tauto
    · have hkeys : (addSample (p :: rest) k v).map Prod.fst =
          p.1 :: (addSample rest k v).map Prod.fst := by
        simp [addSample, hpk]
      rw [hkeys]
      simp only [List.map_cons, List.mem_cons, ih]
      tauto

theorem nodup_keys_addSample (m : List (String × ℚ)) (k : String) (v : ℚ)
    (h : (m.map Prod.fst).Nodup) :
    ((addSample m k v).map Prod.fst).Nodup := by
  induction m with
  | nil => simp [addSample]
  | cons p rest ih =>
    rw [List.map_cons] at h
    obtain ⟨hp, hrest⟩ := List.nodup_cons.1 h
    by_cases hpk : p.1 = k
    · have hkeys : (addSample (p :: rest) k v).map Prod.fst =
          p.1 :: rest.map Prod.fst := by
        simp [addSample, hpk]
      rw [hkeys]
      exact List.nodup_cons.2 ⟨hp, hrest⟩
    · have hkeys : (addSample (p :: rest) k v).map Prod.fst =
          p.1 :: (addSample rest k v).map Prod.fst := by
        simp [addSample, hpk]
      rw [hkeys]
      rw [List.nodup_cons]
      refine ⟨?_, ih hrest⟩
      intro hcontra
      rcases (mem_keys_addSample rest k p.1 v).1 hcontra with hc | hmem
      · exact hpk hc
      · exact hp hmem

theorem valueAt_addTickerSamples (samples : List (String × ℚ)) :
    ∀ (acc : List (String × ℚ)) (sh : ℚ) (k : String),
    valueAt (addTickerSamples acc sh samples) k =
      valueAt acc k +
        ((samples.filter fun s => s.1 = k).map fun s => s.2 * sh).sum := by
  induction samples with
  | nil =>
    intro acc sh k
    simp [addTickerSamples]
  | cons s rest ih =>
    intro acc sh k
    have hstep : addTickerSamples acc sh (s :: rest) =
        addTickerSamples (addSample acc s.1 (s.2 * sh)) sh rest := rfl
    rw [hstep, ih, valueAt_addSample]
    by_cases hk : k = s.1
    · rw [if_pos hk]
      have hfil : (s :: rest).filter (fun x => x.1 = k) =
          s :: rest.filter (fun x => x.1 = k) := by
        simp [List.filter_cons, hk.symm]
      rw [hfil]
      simp only [List.map_cons, List.sum_cons]
      ring
    · rw [if_neg hk]
      have hsk : ¬ s.1 = k := fun hc => hk hc.symm
      have hfil : (s :: rest).filter (fun x => x.1 = k) =
          rest.filter (fun x => x.1 = k) := by
        simp [List.filter_cons, hsk]
      rw [hfil]

theorem mem_keys_addTickerSamples (samples : List (String × ℚ)) :
    ∀ (acc : List (String × ℚ)) (sh : ℚ) (k : String),
    k ∈ (addTickerSamples acc sh samples).map Prod.fst ↔
      k ∈ acc.map Prod.fst ∨ ∃ s ∈ samples, s.1 = k := by
  induction samples with
  | nil =>
    intro acc sh k
    simp [addTickerSamples]
  | cons s rest ih =>
    intro acc sh k
    have hstep : addTickerSamples acc sh (s :: rest) =
        addTickerSamples (addSample acc s.1 (s.2 * sh)) sh rest := rfl
    rw [hstep, ih, mem_keys_addSample]
    constructor
    · rintro ((rfl | hacc) | ⟨x, hx, rfl⟩)
      · exact Or.inr ⟨s, List.mem_cons_self s rest, rfl⟩
      · exact Or.inl hacc
      · exact Or.inr ⟨x, List.mem_cons_of_mem s hx, rfl⟩
    · rintro (hacc | ⟨x, hx, rfl⟩)
      · exact Or.inl (Or.inr hacc)
      · rcases List.mem_cons.1 hx with rfl | hx2
        · exact Or.inl (Or.inl rfl)
        · exact Or.inr ⟨x, hx2, rfl⟩

theorem nodup_keys_addTickerSamples (samples : List (String × ℚ)) :
    ∀ (acc : List (String × ℚ)) (sh : ℚ),
    (acc.map Prod.fst).Nodup →
    ((addTickerSamples acc sh samples).map Prod.fst).Nodup := by
  induction samples with
  | nil =>
    intro acc sh h
    simpa [addTickerSamples] using h
  | cons s rest ih =>
    intro acc sh h
    exact ih (addSample acc s.1 (s.2 * sh)) sh
      (nodup_keys_addSample acc s.1 (s.2 * sh) h)

theorem valueAt_buildValues_aux (ts : List TickerData) :
    ∀ (acc : List (String × ℚ)) (k : String),
    valueAt (ts.foldl
        (fun acc td => addTickerSamples acc td.shares td.samples) acc) k =
      valueAt acc k + totalAt k ts := by
  induction ts with
  | nil =>
    intro acc k
    simp [totalAt]
  | cons td rest ih =>
    intro acc k
    rw [List.foldl_cons, ih, valueAt_addTickerSamples]
    simp only [totalAt, List.map_cons, List.sum_cons]
    ring

theorem valueAt_buildValues (ts : List TickerData) (k : String) :
    valueAt (buildValues ts) k = totalAt k ts := by
  have := valueAt_buildValues_aux ts [] k
  simpa [buildValues, valueAt] using this

theorem nodup_keys_buildValues (ts : List TickerData) :
    ((buildValues ts).map Prod.fst).Nodup := by
  have haux : ∀ (l : List TickerData) (acc : List (String × ℚ)),
      (acc.map Prod.fst).Nodup →
      ((l.foldl (fun acc td => addTickerSamples acc td.shares td.samples)
        acc).map Prod.fst).Nodup := by
    intro l
    induction l with
    | nil => intro acc h; simpa using h
    | cons td rest ih =>
      intro acc h
      exact ih _ (nodup_keys_addTickerSamples td.samples acc td.shares h)
  exact haux ts [] (by simp)

/-- Claim C8, amended: the series is sorted by timestamp key with no
duplicate keys, and the value at each key is the sum of every matching
sample's `price * shares` across all tickers — repeated samples of one
ticker at the same key are summed as well, not overwritten. -/
theorem claim_c8_theorem (ts : List TickerData) :
    ((trendSeries ts).map Prod.fst).Sorted (· ≤ ·) ∧
    ((trendSeries ts).map Prod.fst).Nodup ∧
    ∀ p ∈ trendSeries ts, p.2 = totalAt p.1 ts := by
  have hkeys : (trendSeries ts).map Prod.fst =
      List.insertionSort (fun a b : String => a ≤ b)
        ((buildValues ts).map Prod.fst) := by
    simp only [trendSeries]
    rw [List.map_map]
    exact List.map_id _
  refine ⟨?_, ?_, ?_⟩
  · rw [hkeys]
    exact List.sorted_insertionSort _ _
  · rw [hkeys]
    exact ((List.perm_insertionSort _ _).nodup_iff).2 (nodup_keys_buildValues ts)
  · intro p hp
    simp only [trendSeries, List.mem_map] at hp
    obtain ⟨k, _, rfl⟩ := hp
    exact valueAt_buildValues ts k

/-- Witness for the amended claim C8: with two tickers sharing the bucket
key a, the series value at a is the cross-ticker sum 2*3 + 1*4 = 10. -/
theorem claim_c8_witness :
    (("a", (10:ℚ)) : String × ℚ).2 =
      totalAt "a" [⟨2, [("a", 3)]⟩, ⟨1, [("a", 4), ("b", 5)]⟩] :=
  (claim_c8_theorem [⟨2, [("a", 3)]⟩, ⟨1, [("a", 4), ("b", 5)]⟩]).2.2
    ("a", 10)
    (by
      simp +decide [trendSeries, buildValues, addTickerSamples, addSample,
        valueAt, List.insertionSort, List.orderedInsert] <;> norm_num)

/-- Claim C8 as stated is false in its per-ticker de-duplication clause: a
ticker contributing two samples at the same bucket key has them summed
(100 + 50 = 150), where the spec demands the second overwrite the first
(yielding 50). -/
theorem claim_c8_counterexample :
    trendSeries [⟨1, [("d1", 100), ("d1", 50)]⟩] = [("d1", 150)] ∧
    specTrendSeries [⟨1, [("d1", 100), ("d1", 50)]⟩] = [("d1", 50)] ∧
    trendSeries [⟨1, [("d1", 100), ("d1", 50)]⟩] ≠
      specTrendSeries [⟨1, [("d1", 100), ("d1", 50)]⟩] := by
  refine ⟨?_, ?_, ?_⟩ <;>
    (simp +decide [trendSeries, specTrendSeries, buildValues,
      addTickerSamples, addSample, dedupSamples, setSample, valueAt,
      List.insertionSort, List.orderedInsert] <;> norm_num)

/-! ### Claim C6: snapshot recording -/

theorem dropDate_sublist (d : String) (l : List Snapshot) :
    List.Sublist (dropDate d l) l := by
  induction l with
  | nil => simp [dropDate]
  | cons s rest ih =>
    by_cases h : s.date = d
    · simp only [dropDate, if_pos h]
      exact (List.sublist_cons_self s rest)
    · simp only [dropDate, if_neg h]
      exact List.Sublist.cons₂ s ih

theorem dropDate_of_forall_ne (d : String) (l : List Snapshot)
    (h : ∀ s ∈ l, s.date ≠ d) : dropDate d l = l := by
  induction l with
  | nil => rfl
  | cons s rest ih =>
    simp only [dropDate, if_neg (h s (List.mem_cons_self s rest))]
    rw [ih fun x hx => h x (List.mem_cons_of_mem s hx)]

theorem date_ne_of_mem_dropDate (d : String) (l : List Snapshot)
    (hnd : (l.map Snapshot.date).Nodup) :
    ∀ s ∈ dropDate d l, s.date ≠ d := by
  induction l with
  | nil => simp [dropDate]
  | cons s0 rest ih =>
    rw [List.map_cons] at hnd
    obtain ⟨h0, hrest⟩ := List.nodup_cons.1 hnd
    by_cases h : s0.date = d
    · simp only [dropDate, if_pos h]
      intro s hs hcontra
      exact h0 (List.mem_map.2 ⟨s, hs, by rw [hcontra, ← h]⟩)
    · simp only [dropDate, if_neg h]
      intro s hs
      rcases List.mem_cons.1 hs with rfl | hs2
      · exact h
      · exact ih hrest s hs2

/-- Inserting an element no larger than a maximal last element keeps that
element last. -/
theorem orderedInsert_append_max (b a : Snapshot) (l : List Snapshot)
    (h : snapLE b a) :
    List.orderedInsert snapLE b (l ++ [a]) =
      List.orderedInsert snapLE b l ++ [a] := by
  induction l with
  | nil =>
    simp only [List.nil_append, List.orderedInsert, if_pos h]
    rfl
  | cons c rest ih =>
    by_cases hc : snapLE b c
    · simp only [List.cons_append, List.orderedInsert, if_pos hc]
      rfl
    · simp only [List.cons_append, List.orderedInsert, if_neg hc,
        List.append_eq]
      rw [ih]

/-- Sorting a list that ends with its maximum keeps the maximum last. -/
theorem insertionSort_append_max (a : Snapshot) (l : List Snapshot)
    (h : ∀ b ∈ l, snapLE b a) :
    List.insertionSort snapLE (l ++ [a]) =
      List.insertionSort snapLE l ++ [a] := by
  induction l with
  | nil => rfl
  | cons c rest ih =>
    simp only [List.cons_append, List.insertionSort, List.append_eq]
    rw [ih fun b hb => h b (List.mem_cons_of_mem c hb),
      orderedInsert_append_max c a _ (h c (List.mem_cons_self c rest))]

/-- What one `record_portfolio_snapshot` call guarantees over a consistent
prior history: unique dates, date order, the 365 cap, today's values stored
under today's date, all dates still bounded by today, and the oldest-drop
behaviour at the cap. -/
theorem record_portfolio_snapshot_spec (today : String)
    (accountsData : List (String × ℚ × ℚ)) (history : List Snapshot)
    (hnd : (history.map Snapshot.date).Nodup)
    (hle : ∀ s ∈ history, s.date ≤ today) :
    ((record_portfolio_snapshot today accountsData history).map
      Snapshot.date).Nodup ∧
    List.Sorted snapLE (record_portfolio_snapshot today accountsData history) ∧
    (record_portfolio_snapshot today accountsData history).length ≤ 365 ∧
    mkSnapshot today accountsData ∈
      record_portfolio_snapshot today accountsData history ∧
    (∀ s ∈ record_portfolio_snapshot today accountsData history,
      s.date = today → s = mkSnapshot today accountsData) ∧
    (∀ s ∈ record_portfolio_snapshot today accountsData history,
      s.date ≤ today) ∧
    (history.length = 365 → List.Sorted snapLE history →
      (∀ s ∈ history, s.date < today) →
      record_portfolio_snapshot today accountsData history =
        history.tail ++ [mkSnapshot today accountsData]) := by
  have hsub : List.Sublist (dropDate today history) history :=
    dropDate_sublist today history
  have hprunedle : ∀ s ∈ dropDate today history, s.date ≤ today :=
    fun s hs => hle s (hsub.subset hs)
  have hprunedne : ∀ s ∈ dropDate today history, s.date ≠ today :=
    date_ne_of_mem_dropDate today history hnd
  have hprunednd : ((dropDate today history).map Snapshot.date).Nodup :=
    hnd.sublist (hsub.map _)
  have hsorteq : List.insertionSort snapLE
      (dropDate today history ++ [mkSnapshot today accountsData]) =
      List.insertionSort snapLE (dropDate today history) ++
        [mkSnapshot today accountsData] :=
    insertionSort_append_max _ _ fun b hb => hprunedle b hb
  have hSperm : (List.insertionSort snapLE (dropDate today history)).Perm
      (dropDate today history) := List.perm_insertionSort _ _
  have hSnd : ((List.insertionSort snapLE
      (dropDate today history)).map Snapshot.date).Nodup :=
    ((hSperm.map _).nodup_iff).2 hprunednd
  have hSne : ∀ s ∈ List.insertionSort snapLE (dropDate today history),
      s.date ≠ today := fun s hs => hprunedne s (hSperm.subset hs)
  have hSle : ∀ s ∈ List.insertionSort snapLE (dropDate today history),
      s.date ≤ today := fun s hs => hprunedle s (hSperm.subset hs)
  have hSsorted : List.Sorted snapLE
      (List.insertionSort snapLE (dropDate today history)) :=
    List.sorted_insertionSort _ _
  have hdle : (List.insertionSort snapLE (dropDate today history)).length +
      1 - 365 ≤
      (List.insertionSort snapLE (dropDate today history)).length := by
    omega
  have hform : record_portfolio_snapshot today accountsData history =
      (List.insertionSort snapLE (dropDate today history)).drop
          ((List.insertionSort snapLE (dropDate today history)).length +
            1 - 365) ++
        [mkSnapshot today accountsData] := by
    show keepLast 365 (List.insertionSort snapLE
        (dropDate today history ++ [mkSnapshot today accountsData])) = _
    rw [hsorteq, keepLast, List.length_append]
    simp only [List.length_singleton]
    exact List.drop_append_of_le_length hdle
  have hdropsub : List.Sublist
      ((List.insertionSort snapLE (dropDate today history)).drop
        ((List.insertionSort snapLE (dropDate today history)).length +
          1 - 365))
      (List.insertionSort snapLE (dropDate today history)) :=
    List.drop_sublist _ _
  refine ⟨?_, ?_, ?_, ?_, ?_, ?_, ?_⟩
  · rw [hform, List.map_append]
    rw [List.nodup_append]
    refine ⟨hSnd.sublist (hdropsub.map _), by simp, ?_⟩
    intro d hd1 hd2
    simp only [List.map_cons, List.map_nil, List.mem_singleton] at hd2
    obtain ⟨s, hs, rfl⟩ := List.mem_map.1 hd1
    exact hSne s (hdropsub.subset hs) hd2
  · rw [hform]
    rw [List.Sorted, List.pairwise_append]
    refine ⟨hSsorted.sublist hdropsub, by simp, ?_⟩
    intro a ha b hb
    rw [List.mem_singleton] at hb
    subst hb
    exact hSle a (hdropsub.subset ha)
  · rw [hform, List.length_append]
    simp only [List.length_singleton, List.length_drop]
    omega
  · rw [hform]
    exact List.mem_append_right _ (List.mem_singleton_self _)
  · rw [hform]
    intro s hs hdate
    rcases List.mem_append.1 hs with hs1 | hs2
    · exact absurd hdate (hSne s (hdropsub.subset hs1))
    · exact List.mem_singleton.1 hs2
  · rw [hform]
    intro s hs
    rcases List.mem_append.1 hs with hs1 | hs2
    · exact hSle s (hdropsub.subset hs1)
    · rw [List.mem_singleton.1 hs2]
      exact le_refl _
  · intro hlen hsorted hlt
    have hne : ∀ s ∈ history, s.date ≠ today :=
      fun s hs => ne_of_lt (hlt s hs)
    have hpr : dropDate today history = history :=
      dropDate_of_forall_ne today history hne
    have hins : List.insertionSort snapLE (dropDate today history) =
        history := by
      rw [hpr]
      exact hsorted.insertionSort_eq
    rw [hform, hins, hlen]
    norm_num

/-- Claim C6: `record_portfolio_snapshot` is an idempotent per-date upsert
with a bounded ordered history: after a call the history has at most one
snapshot per date, is ordered by date and holds at most 365 entries, with
today's values stored under today's date; a second call on the same date
replaces the first, keeping the later values; and recording a 366th
distinct date drops the oldest snapshot. -/
theorem claim_c6_theorem (today : String)
    (d1 d2 : List (String × ℚ × ℚ)) (history : List Snapshot)
    (hnd : (history.map Snapshot.date).Nodup)
    (hle : ∀ s ∈ history, s.date ≤ today) :
    ((record_portfolio_snapshot today d1 history).map Snapshot.date).Nodup ∧
    List.Sorted snapLE (record_portfolio_snapshot today d1 history) ∧
    (record_portfolio_snapshot today d1 history).length ≤ 365 ∧
    mkSnapshot today d1 ∈ record_portfolio_snapshot today d1 history ∧
    (∀ s ∈ record_portfolio_snapshot today d1 history,
      s.date = today → s = mkSnapshot today d1) ∧
    (mkSnapshot today d2 ∈ record_portfolio_snapshot today d2
        (record_portfolio_snapshot today d1 history) ∧
      ∀ s ∈ record_portfolio_snapshot today d2
        (record_portfolio_snapshot today d1 history),
        s.date = today → s = mkSnapshot today d2) ∧
    (history.length = 365 → List.Sorted snapLE history →
      (∀ s ∈ history, s.date < today) →
      record_portfolio_snapshot today d1 history =
        history.tail ++ [mkSnapshot today d1]) := by
  obtain ⟨h1, h2, h3, h4, h5, h6, h7⟩ :=
    record_portfolio_snapshot_spec today d1 history hnd hle
  obtain ⟨g1, g2, g3, g4, g5, g6, g7⟩ :=
    record_portfolio_snapshot_spec today d2 _ h1 h6
  exact ⟨h1, h2, h3, h4, h5, ⟨g4, g5⟩, h7⟩

/-- Witness for claim C6: recording the first snapshot over a one-day-old
history stores today's values under today's date. -/
theorem claim_c6_witness :
    mkSnapshot "2024-01-02" [("a1", 10, 8)] ∈
      record_portfolio_snapshot "2024-01-02" [("a1", 10, 8)]
        [⟨"2024-01-01", [], 5, 4⟩] :=
  ( claim_c6_theorem "2024-01-02" [("a1", 10, 8)] [("a1", 12, 9)]
    [⟨"2024-01-01", [], 5, 4⟩] (by simp)
    (by
      intro s hs
      rw [List.mem_singleton] at hs
      subst hs
      show ("2024-01-01" : String) ≤ "2024-01-02"
      rw [String.le_iff_toList_le]
      decide)).2.2.2.1

/-! ### Claim C10: fees never influence computed results -/

/-- A trade with its fees cleared; every field the ledger and the FIFO
computation read is untouched. -/
def stripFees (t : Trade) : Trade := { t with fees := 0 }

/-- Two trades identical except possibly for their fees. -/
def SameExceptFees (a b : Trade) : Prop :=
  a.tid = b.tid ∧ a.date = b.date ∧ a.account_id = b.account_id ∧
  a.ticker = b.ticker ∧ a.action = b.action ∧ a.shares = b.shares ∧
  a.price = b.price ∧ a.notes = b.notes

theorem stripFees_eq_of_sameExceptFees {a b : Trade}
    (h : SameExceptFees a b) : stripFees a = stripFees b := by
  obtain ⟨h1, h2, h3, h4, h5, h6, h7, h8⟩ := h
  cases a
  cases b
  simp_all [stripFees]

theorem applyTrade_stripFees (t : Trade) (hs : List Holding) :
    applyTrade (stripFees t) hs = applyTrade t hs := by
  induction hs with
  | nil => rfl
  | cons h rest ih =>
    by_cases hc : h.ticker = t.ticker
    · cases ha : t.action with
      | BUY =>
        rw [applyTrade_cons_buy t h rest hc ha,
          applyTrade_cons_buy (stripFees t) h rest hc ha]
        exact rfl
      | SELL =>
        rw [applyTrade_cons_sell t h rest hc ha,
          applyTrade_cons_sell (stripFees t) h rest hc ha]
        exact rfl
    · have hone : ∀ x ∈ [h], x.ticker ≠ t.ticker := by
        intro x hx
        rw [List.mem_singleton] at hx
        subst hx
        exact hc
      rw [show (h :: rest) = [h] ++ rest from rfl,
        applyTrade_append_no_match t [h] rest hone,
        applyTrade_append_no_match (stripFees t) [h] rest hone, ih]

theorem applyTrades_stripFees (l : List Trade) :
    ∀ hs : List Holding, applyTrades (l.map stripFees) hs = applyTrades l hs := by
  induction l with
  | nil => intro hs; rfl
  | cons t rest ih =>
    intro hs
    show applyTrades (rest.map stripFees) (applyTrade (stripFees t) hs) =
      applyTrades rest (applyTrade t hs)
    rw [applyTrade_stripFees, ih]

theorem sortTrades_map_stripFees (l : List Trade) :
    sortTrades (l.map stripFees) = (sortTrades l).map stripFees := by
  unfold sortTrades
  exact (List.map_insertionSort _ _ stripFees l fun a _ b _ => Iff.rfl).symm

theorem sellsOf_map_stripFees (tk : String) (x : List Trade) :
    sellsOf tk (x.map stripFees) = sellsOf tk x := by
  unfold sellsOf
  rw [List.filter_map, List.map_map]
  exact rfl

theorem buysOf_map_stripFees (tk : String) (x : List Trade) :
    buysOf tk (x.map stripFees) = buysOf tk x := by
  unfold buysOf
  rw [List.filter_map, List.map_map]
  exact rfl

theorem calculate_realized_gains_stripFees (l : List Trade) :
    calculate_realized_gains (l.map stripFees) =
      calculate_realized_gains l := by
  unfold calculate_realized_gains
  rw [sortTrades_map_stripFees]
  have hfun : gainEntry ((sortTrades l).map stripFees) =
      gainEntry (sortTrades l) := by
    funext tk
    unfold gainEntry
    rw [sellsOf_map_stripFees, buysOf_map_stripFees]
  rw [hfun, List.map_map]
  exact rfl

/-- Claim C10: two trade logs identical except for fees produce identical
holdings through the ledger and identical realized-gain records through the
FIFO computation — the `fees` field never influences either result. -/
theorem claim_c10_theorem (l1 l2 : List Trade) (hs : List Holding)
    (h : List.Forall₂ SameExceptFees l1 l2) :
    applyTrades l1 hs = applyTrades l2 hs ∧
    calculate_realized_gains l1 = calculate_realized_gains l2 := by
  have hmap : l1.map stripFees = l2.map stripFees := by
    induction h with
    | nil => rfl
    | cons hab htail ih =>
      simp only [List.map_cons, stripFees_eq_of_sameExceptFees hab, ih]
  constructor
  · rw [← applyTrades_stripFees l1 hs, ← applyTrades_stripFees l2 hs, hmap]
  · rw [← calculate_realized_gains_stripFees l1,
      ← calculate_realized_gains_stripFees l2, hmap]

/-- Witness for claim C10: the same BUY with fees 5 and with fees 7 yields
the same holdings and the same realized gains. -/
theorem claim_c10_witness :
    applyTrades [⟨"t1", "2024-01-01", "a", "X", TAction.BUY, 10, 100, 5, ""⟩]
        [] =
      applyTrades [⟨"t1", "2024-01-01", "a", "X", TAction.BUY, 10, 100, 7, ""⟩]
        [] ∧
    calculate_realized_gains
        [⟨"t1", "2024-01-01", "a", "X", TAction.BUY, 10, 100, 5, ""⟩] =
      calculate_realized_gains
        [⟨"t1", "2024-01-01", "a", "X", TAction.BUY, 10, 100, 7, ""⟩] :=
  claim_c10_theorem
    [⟨"t1", "2024-01-01", "a", "X", TAction.BUY, 10, 100, 5, ""⟩]
    [⟨"t1", "2024-01-01", "a", "X", TAction.BUY, 10, 100, 7, ""⟩] []
    (List.Forall₂.cons ⟨rfl, rfl, rfl, rfl, rfl, rfl, rfl, rfl⟩
      List.Forall₂.nil)

end StockDash
